import Mathlib

/-!
Verification of the core random-number engine of the repository
(`src/rng.rs`, `src/randel.rs`, `src/rng_error.rs`).

Modelling conventions:
- Rust `u64` values are modelled as `ℕ`; the wrapping 64-bit arithmetic of
  `Rng::next` (`wrapping_mul` / `wrapping_add`) is modelled by an explicit
  `% 2^64` reduction.
- Rust `f64` values are modelled by exact rationals `ℚ` (idealised real
  arithmetic); IEEE-754 rounding is outside the model and noted where it
  matters.
- `f64::sqrt` and the table-based logarithm `simple_ln` (whose module
  `auxiliary.rs` is not present under `src/`) are abstracted as function
  parameters `sqrtf lnf : ℚ → ℚ` of the normal sampler; the theorems about
  the sampler's state and cache behaviour hold for every choice of these
  functions, hence in particular for the real ones.
- The time-derived seed of `Rng::new` is abstracted as an explicit seed
  parameter where it occurs (`RandEl.new`).
-/

/-- Model of the Rust struct `Rng` from `src/rng.rs`: an LCG seed, the
evolving state word, and the one-slot cache of the normal sampler. -/
structure Rng where
  seed : ℕ
  state : ℕ
  cached_normal : Option ℚ
deriving DecidableEq, Repr

/-- The LCG multiplier `Rng::A = 6364136223846793005`. -/
def Rng.A : ℕ := 6364136223846793005

/-- The LCG increment `Rng::C = 1`. -/
def Rng.C : ℕ := 1

/-- The scaling constant `Rng::INV_U64_MAX = 1 / u64::MAX`
(exact rational model). -/
def Rng.INV_U64_MAX : ℚ := 1 / (2 ^ 64 - 1)

/-- The pure state update performed by `Rng::next`:
`state = A.wrapping_mul(state).wrapping_add(C)`, i.e. `(A * x + C) mod 2^64`. -/
def Rng.nextState (x : ℕ) : ℕ := (Rng.A * x + Rng.C) % 2 ^ 64

/-- Model of `Rng::new_seed(seed)`. -/
def Rng.new_seed (seed : ℕ) : Rng :=
  { seed := seed, state := seed, cached_normal := none }

/-- Model of `Rng::next`: advances the state once and returns the new state. -/
def Rng.next (r : Rng) : ℕ × Rng :=
  let st := Rng.nextState r.state
  (st, { r with state := st })

/-- Model of `Rng::generate`: `self.next() as f64 * Self::INV_U64_MAX`. -/
def Rng.generate (r : Rng) : ℚ × Rng :=
  let p := Rng.next r
  ((p.1 : ℚ) * Rng.INV_U64_MAX, p.2)

/-- Model of `Rng::set_seed(seed)`: overwrites `seed` and `state`, clears
the normal cache. -/
def Rng.set_seed (r : Rng) (seed : ℕ) : Rng :=
  { r with seed := seed, state := seed, cached_normal := none }

/-- Model of `Rng::restart`: resets `state := seed`, clears the normal cache. -/
def Rng.restart (r : Rng) : Rng :=
  { r with state := r.seed, cached_normal := none }

/-- Model of `RngTrait::generate_multiple` specialised to `Rng::generate`:
pushes `number` successive draws into a list. -/
def Rng.generate_multiple (r : Rng) : ℕ → List ℚ × Rng
  | 0 => ([], r)
  | n + 1 =>
    let p := Rng.generate r
    let rest := Rng.generate_multiple p.2 n
    (p.1 :: rest.1, rest.2)

/-- The acceptance test of the rejection loop in `Rng::gen_standard_normal`,
exactly as the code writes it: `s < 1f64` (and nothing else). -/
def sAccepted (s : ℚ) : Bool := decide (s < 1)

/-- The rejection loop of `Rng::gen_standard_normal` (the `loop { .. }` on an
empty cache), with the two opaque numerical primitives `simple_ln` and
`f64::sqrt` passed in as `lnf` and `sqrtf`, and an explicit fuel bound in
place of the unbounded `loop`. -/
def marsagliaLoop (lnf sqrtf : ℚ → ℚ) : ℕ → Rng → Option (ℚ × Rng)
  | 0, _ => none
  | fuel + 1, r =>
    let p1 := Rng.generate r
    let u : ℚ := 2 * p1.1 - 1
    let p2 := Rng.generate p1.2
    let v : ℚ := 2 * p2.1 - 1
    let s : ℚ := u ^ 2 + v ^ 2
    if sAccepted s then
      let factor : ℚ := sqrtf (-2 * lnf s / s)
      some (u * factor, { p2.2 with cached_normal := some (v * factor) })
    else
      marsagliaLoop lnf sqrtf fuel p2.2

/-- Model of `Rng::gen_standard_normal`: take the cached value if present,
otherwise run the polar rejection loop. -/
def Rng.gen_standard_normal (lnf sqrtf : ℚ → ℚ) (fuel : ℕ) (r : Rng) :
    Option (ℚ × Rng) :=
  match r.cached_normal with
  | some n => some (n, { r with cached_normal := none })
  | none => marsagliaLoop lnf sqrtf fuel r

/-- Model of the Rust enum `RngError` from `src/rng_error.rs`
(`f64` payloads modelled as `ℚ`). -/
inductive RngError where
  | OrderError (low high : ℚ)
  | NonNegativeError (value : ℚ)
  | PositiveError (value : ℚ)
  | IntervalError (value min max : ℚ)
  | EmptyError
deriving DecidableEq, Repr

/-- Model of `RngError::check_empty`: `Ok(())` when the vector is non-empty,
`Err(EmptyError)` otherwise. -/
def RngError.check_empty {α : Type} (vec : List α) : Except RngError Unit :=
  if !vec.isEmpty then Except.ok () else Except.error RngError.EmptyError

/-- Model of the Rust struct `RandEl` from `src/randel.rs`. -/
structure RandEl (α : Type) where
  rng : Rng
  vec : List α
deriving DecidableEq, Repr

/-- Model of `RandEl::new`: validates that `vec` is non-empty, then builds
the instance.  The time-derived seed of the inner `Rng::new()` is abstracted
as the explicit parameter `seed`. -/
def RandEl.new {α : Type} (seed : ℕ) (vec : List α) :
    Except RngError (RandEl α) :=
  match RngError.check_empty vec with
  | Except.error e => Except.error e
  | Except.ok _ => Except.ok { rng := Rng.new_seed seed, vec := vec }

/-- The index computation of `RandEl::generate`:
`(len as f64 * uni).floor().min(len as f64 - 1.0) as usize`.
The saturating `as usize` cast of a (possibly negative) float is modelled by
`Int.toNat`. -/
def randelIndex (len : ℕ) (uni : ℚ) : ℕ :=
  (min ⌊(len : ℚ) * uni⌋ ((len : ℤ) - 1)).toNat

/-- Model of `RandEl::generate`: draw a uniform value, compute the clamped
index, and read the element (`List.get?` models the indexing `&self.vec[i]`,
returning `none` exactly when the code would panic out of bounds). -/
def RandEl.generate {α : Type} (r : RandEl α) : Option α × RandEl α :=
  let p := Rng.generate r.rng
  (r.vec.get? (randelIndex r.vec.length p.1), { r with rng := p.2 })

/-- Modelled from the spec: the module `auxiliary.rs`, which holds the
table-based fast logarithm `simple_ln`, is not present under `src/`.
Per spec section 4.3 the table has nodes `x_0 = eps, x_1, ..., x_N = 1`,
equally spaced with step `h = (1 - eps) / N`, holding the exact `ln` of each
node; a query locates its bucket by direct index arithmetic and linearly
interpolates; a query `x <= 0` is clamped to the smallest positive node
`x_0 = eps` and returns that node's logarithm value. -/
noncomputable def simple_ln (eps : ℝ) (N : ℕ) (x : ℝ) : ℝ :=
  if x ≤ 0 then
    Real.log eps
  else
    let h : ℝ := (1 - eps) / N
    let i : ℕ := min (N - 1) (⌊(x - eps) / h⌋.toNat)
    let xi : ℝ := eps + i * h
    Real.log xi + (x - xi) / h * (Real.log (xi + h) - Real.log xi)

/-- The LCG multiplier `Rng::A` as an integer, for the number-theoretic
analysis of the recurrence. -/
def AZ : ℤ := 6364136223846793005

/-- The LCG state update viewed in the ring `ZMod (2^64)`:
`x ↦ A * x + C`.  Working modulo `2^64` here is exactly the wrapping
arithmetic of `Rng::next`. -/
def lcgZ (x : ZMod (2 ^ 64)) : ZMod (2 ^ 64) := (AZ : ZMod (2 ^ 64)) * x + 1

/-- The geometric sum `1 + a + ... + a^(n-1)`, defined by the recurrence
`S 0 = 0`, `S (n+1) = a * S n + 1`; it is the increment accumulated by `n`
iterations of the affine map `x ↦ a * x + 1`. -/
def geomS {R : Type} [CommRing R] (a : R) : ℕ → R
  | 0 => 0
  | n + 1 => a * geomS a n + 1

instance : NeZero ((2 : ℕ) ^ 64) := ⟨by positivity⟩

lemma Rng.generate_snd (r : Rng) :
    (Rng.generate r).2 = { r with state := Rng.nextState r.state } := rfl

lemma Rng.generate_fst (r : Rng) :
    (Rng.generate r).1 = ((Rng.nextState r.state : ℕ) : ℚ) * Rng.INV_U64_MAX := rfl

lemma Rng.nextState_lt (x : ℕ) : Rng.nextState x < 2 ^ 64 :=
  Nat.mod_lt _ (by norm_num)

lemma Rng.generate_fst_nonneg (r : Rng) : 0 ≤ (Rng.generate r).1 := by
  rw [Rng.generate_fst, Rng.INV_U64_MAX]
  positivity

lemma Rng.generate_fst_le_one (r : Rng) : (Rng.generate r).1 ≤ 1 := by
  rw [Rng.generate_fst, Rng.INV_U64_MAX, mul_one_div]
  rw [div_le_one (by norm_num)]
  have h : Rng.nextState r.state ≤ 2 ^ 64 - 1 :=
    Nat.le_sub_one_of_lt (Rng.nextState_lt r.state)
  calc ((Rng.nextState r.state : ℕ) : ℚ) ≤ ((2 ^ 64 - 1 : ℕ) : ℚ) := by
        exact_mod_cast h
    _ = (2 : ℚ) ^ 64 - 1 := by
        push_cast [Nat.cast_sub (by norm_num : (1 : ℕ) ≤ 2 ^ 64)]
        norm_num

lemma Rng.generate_multiple_seed (r : Rng) (n : ℕ) :
    (Rng.generate_multiple r n).2.seed = r.seed := by
  induction n generalizing r with
  | zero => rfl
  | succ n ih =>
    show (Rng.generate_multiple (Rng.generate r).2 n).2.seed = r.seed
    rw [ih]
    rfl

lemma Rng.restart_eq_new_seed (r : Rng) : Rng.restart r = Rng.new_seed r.seed := rfl

/-- Claim C1: every call to `Rng::generate` advances the state exactly once
via `state = (A * state + C) mod 2^64` (wrapping arithmetic), leaves the seed
and the normal cache untouched, and returns the new state divided by
`u64::MAX`, a value in the interval `[0, 1]` inclusive. -/
theorem uniform_advances_state_once_and_in_unit_interval (r : Rng) :
    (Rng.generate r).2.state = (Rng.A * r.state + Rng.C) % 2 ^ 64 ∧
    (Rng.generate r).2.seed = r.seed ∧
    (Rng.generate r).2.cached_normal = r.cached_normal ∧
    (Rng.generate r).1 =
      (((Rng.A * r.state + Rng.C) % 2 ^ 64 : ℕ) : ℚ) / ((2 : ℚ) ^ 64 - 1) ∧
    0 ≤ (Rng.generate r).1 ∧ (Rng.generate r).1 ≤ 1 := by
  refine ⟨rfl, rfl, rfl, ?_, Rng.generate_fst_nonneg r, Rng.generate_fst_le_one r⟩
  rw [Rng.generate_fst, Rng.INV_U64_MAX, mul_one_div]
  rfl

/-- Claim C2: two engines constructed with the same explicit seed produce
identical sequences of uniform draws, for every length `n`. -/
theorem equal_seeds_identical_streams (s n : ℕ) (e1 e2 : Rng)
    (h1 : e1 = Rng.new_seed s) (h2 : e2 = Rng.new_seed s) :
    Rng.generate_multiple e1 n = Rng.generate_multiple e2 n := by
  rw [h1, h2]

theorem equal_seeds_identical_streams_witness :
    Rng.generate_multiple (Rng.new_seed 5) 3 =
      Rng.generate_multiple (Rng.new_seed 5) 3 :=
  equal_seeds_identical_streams 5 3 _ _ rfl rfl

/-- Claim C3: `Rng::restart` resets the state to the seed, the restarted
engine is exactly a freshly constructed engine with that seed (so all
subsequent draws agree with the fresh engine), and restarting again after
drawing `n` values reproduces the same `n` values. -/
theorem restart_resets_to_fresh_engine (r : Rng) (n : ℕ) :
    (Rng.restart r).state = r.seed ∧
    Rng.restart r = Rng.new_seed r.seed ∧
    (Rng.generate_multiple (Rng.restart r) n).1 =
      (Rng.generate_multiple (Rng.new_seed r.seed) n).1 ∧
    (Rng.generate_multiple
        (Rng.restart (Rng.generate_multiple (Rng.restart r) n).2) n).1 =
      (Rng.generate_multiple (Rng.restart r) n).1 := by
  refine ⟨rfl, rfl, rfl, ?_⟩
  rw [Rng.restart_eq_new_seed ((Rng.generate_multiple (Rng.restart r) n).2),
    Rng.generate_multiple_seed]
  rfl

/-- Claim C4 (code bug): when both uniform draws are exactly `1/2` the pair is
`u = v = 0` and `s = 0`; the acceptance test the code uses (`s < 1`, from
`if s < 1f64` in `Rng::gen_standard_normal`) accepts this degenerate pair,
although the claim requires it to be discarded, and the accepted branch then
computes `sqrt(-2 * ln(s) / s)` with `s = 0`, a division by zero. -/
theorem code_accepts_degenerate_origin :
    (2 * ((1 : ℚ) / 2) - 1) ^ 2 + (2 * ((1 : ℚ) / 2) - 1) ^ 2 = 0 ∧
    sAccepted ((2 * ((1 : ℚ) / 2) - 1) ^ 2 + (2 * ((1 : ℚ) / 2) - 1) ^ 2) = true := by
  constructor
  · norm_num
  · rw [sAccepted]
    norm_num

/-- Claim C5: `Rng::set_seed` and `Rng::restart` both clear the cached normal
value, and afterwards the normal sampler behaves exactly as on a freshly
constructed engine (for every choice of the numeric primitives and fuel), so
no value computed from the pre-reset stream can be returned. -/
theorem reseed_and_restart_clear_cache (r : Rng) (s : ℕ) :
    (Rng.set_seed r s).cached_normal = none ∧
    (Rng.restart r).cached_normal = none ∧
    (∀ lnf sqrtf fuel,
      Rng.gen_standard_normal lnf sqrtf fuel (Rng.set_seed r s) =
        Rng.gen_standard_normal lnf sqrtf fuel (Rng.new_seed s)) ∧
    (∀ lnf sqrtf fuel,
      Rng.gen_standard_normal lnf sqrtf fuel (Rng.restart r) =
        Rng.gen_standard_normal lnf sqrtf fuel (Rng.new_seed r.seed)) :=
  ⟨rfl, rfl, fun _ _ _ => rfl, fun _ _ _ => rfl⟩

/-- Claim C7: `Rng::set_seed` overwrites both the seed and the state with the
new seed and yields exactly a freshly constructed engine, so every subsequent
draw (uniform or normal) behaves as on a fresh engine with that seed. -/
theorem set_seed_behaves_as_fresh (r : Rng) (s : ℕ) :
    (Rng.set_seed r s).seed = s ∧ (Rng.set_seed r s).state = s ∧
    Rng.set_seed r s = Rng.new_seed s :=
  ⟨rfl, rfl, rfl⟩

/-- Claim C9: for every non-positive input the fast logarithm clamps the
query to the smallest positive table node `eps` and returns that node's
(finite) logarithm value. -/
theorem simple_ln_clamps_nonpositive (eps : ℝ) (N : ℕ) (x : ℝ) (hx : x ≤ 0) :
    simple_ln eps N x = Real.log eps := by
  simp [simple_ln, hx]

theorem simple_ln_clamps_nonpositive_witness :
    simple_ln (1 / 1024) 1024 0 = Real.log (1 / 1024) :=
  simple_ln_clamps_nonpositive (1 / 1024) 1024 0 le_rfl

lemma geomS_succ {R : Type} [CommRing R] (a : R) (n : ℕ) :
    geomS a (n + 1) = a * geomS a n + 1 := rfl

lemma sub_one_mul_geomS {R : Type} [CommRing R] (a : R) (n : ℕ) :
    (a - 1) * geomS a n = a ^ n - 1 := by
  induction n with
  | zero => simp [geomS]
  | succ n ih =>
    calc (a - 1) * geomS a (n + 1) = a * ((a - 1) * geomS a n) + (a - 1) := by
          rw [geomS_succ]; ring
      _ = a * (a ^ n - 1) + (a - 1) := by rw [ih]
      _ = a ^ (n + 1) - 1 := by ring

lemma map_geomS {R S : Type} [CommRing R] [CommRing S] (f : R →+* S) (a : R)
    (n : ℕ) : f (geomS a n) = geomS (f a) n := by
  induction n with
  | zero => simp [geomS]
  | succ n ih => rw [geomS_succ, geomS_succ, map_add, map_mul, map_one, ih]

lemma int_odd_iff_zmod2 (x : ℤ) : Odd x ↔ (x : ZMod 2) = 1 := by
  constructor
  · rintro ⟨k, rfl⟩
    have hcast : ((2 * k + 1 : ℤ) : ZMod 2) = 2 * (k : ZMod 2) + 1 := by
      push_cast
      ring
    have h2 : (2 : ZMod 2) = 0 := by decide
    rw [hcast, h2, zero_mul, zero_add]
  · intro h
    rcases Int.even_or_odd x with he | ho
    · exfalso
      have hdvd : ((2 : ℕ) : ℤ) ∣ x := by exact_mod_cast even_iff_two_dvd.mp he
      have h0 : (x : ZMod 2) = 0 := (ZMod.intCast_zmod_eq_zero_iff_dvd x 2).mpr hdvd
      rw [h0] at h
      exact absurd h (by decide)
    · exact ho

lemma geomS_one_zmod2 (n : ℕ) : geomS (1 : ZMod 2) n = (n : ZMod 2) := by
  induction n with
  | zero => simp [geomS]
  | succ n ih => rw [geomS_succ, ih]; push_cast; ring

lemma odd_geomS {a : ℤ} (ha : Odd a) {m : ℕ} (hm : Odd ((m : ℕ) : ℤ)) :
    Odd (geomS a m) := by
  rw [int_odd_iff_zmod2]
  have hmap := map_geomS (Int.castRingHom (ZMod 2)) a m
  simp only [Int.coe_castRingHom] at hmap
  rw [hmap, (int_odd_iff_zmod2 a).mp ha, geomS_one_zmod2]
  have hmm : (((m : ℕ) : ℤ) : ZMod 2) = ((m : ℕ) : ZMod 2) := by
    push_cast
    rfl
  rw [← hmm, (int_odd_iff_zmod2 ((m : ℕ) : ℤ)).mp hm]

lemma A_pow_two_pow (k : ℕ) : ∃ u : ℤ, Odd u ∧ AZ ^ 2 ^ k = 1 + 2 ^ (k + 2) * u := by
  induction k with
  | zero =>
    refine ⟨1591034055961698251, ⟨795517027980849125, by norm_num⟩, ?_⟩
    norm_num [AZ]
  | succ k ih =>
    obtain ⟨u, hu, h⟩ := ih
    refine ⟨u + 2 ^ (k + 1) * u ^ 2, ?_, ?_⟩
    · refine hu.add_even ?_
      exact ⟨2 ^ k * u ^ 2, by ring⟩
    · calc AZ ^ 2 ^ (k + 1) = (AZ ^ 2 ^ k) ^ 2 := by
            rw [pow_succ, pow_mul]
        _ = (1 + 2 ^ (k + 2) * u) ^ 2 := by rw [h]
        _ = 1 + 2 ^ (k + 1 + 2) * (u + 2 ^ (k + 1) * u ^ 2) := by ring

lemma A_pow_factored (k m : ℕ) (hm : Odd ((m : ℕ) : ℤ)) :
    ∃ w : ℤ, Odd w ∧ AZ ^ (2 ^ k * m) = 1 + 2 ^ (k + 2) * w := by
  obtain ⟨u, hu, h⟩ := A_pow_two_pow k
  have hodda : Odd (AZ ^ 2 ^ k) := by
    rw [h, add_comm]
    exact Even.add_one ⟨2 ^ (k + 1) * u, by ring⟩
  refine ⟨u * geomS (AZ ^ 2 ^ k) m, hu.mul (odd_geomS hodda hm), ?_⟩
  have hpm : AZ ^ (2 ^ k * m) = (AZ ^ 2 ^ k) ^ m := by rw [pow_mul]
  have hsub : (AZ ^ 2 ^ k) ^ m - 1 = 2 ^ (k + 2) * (u * geomS (AZ ^ 2 ^ k) m) := by
    rw [← sub_one_mul_geomS (AZ ^ 2 ^ k) m, h]
    ring
  rw [sub_eq_iff_eq_add] at hsub
  rw [hpm, hsub]
  ring

lemma two_pow_dvd_of_odd_mul {a b x : ℤ} (k : ℕ) (ha : Odd a) (hb : Odd b)
    (h : a * x = 2 ^ k * b) : ∃ c : ℤ, Odd c ∧ x = 2 ^ k * c := by
  have hdvd : (2 : ℤ) ^ k ∣ a * x := by
    rw [h]
    exact dvd_mul_right _ _
  have h2a : ¬(2 : ℤ) ∣ a := by
    intro hd
    exact (Int.not_even_iff_odd.mpr ha) (even_iff_two_dvd.mpr hd)
  have hx : (2 : ℤ) ^ k ∣ x := Int.prime_two.pow_dvd_of_dvd_mul_left k h2a hdvd
  obtain ⟨c, rfl⟩ := hx
  refine ⟨c, ?_, rfl⟩
  have hcancel : a * c = b := by
    have h4 : (2 : ℤ) ^ k * (a * c) = 2 ^ k * b := by
      rw [← h]
      ring
    exact mul_left_cancel₀ (pow_ne_zero k two_ne_zero) h4
  have hac : Odd (a * c) := by rw [hcancel]; exact hb
  exact (Int.odd_mul.mp hac).2

lemma geomS_A_factored (k m : ℕ) (hm : Odd ((m : ℕ) : ℤ)) :
    ∃ c : ℤ, Odd c ∧ geomS AZ (2 ^ k * m) = 2 ^ k * c := by
  obtain ⟨w, hw, hA⟩ := A_pow_factored k m hm
  have hodd0 : Odd (1591034055961698251 : ℤ) := ⟨795517027980849125, by norm_num⟩
  have key : (1591034055961698251 : ℤ) * geomS AZ (2 ^ k * m) = 2 ^ k * w := by
    have h4 : (4 : ℤ) * ((1591034055961698251 : ℤ) * geomS AZ (2 ^ k * m)) =
        4 * (2 ^ k * w) := by
      calc (4 : ℤ) * ((1591034055961698251 : ℤ) * geomS AZ (2 ^ k * m))
          = (AZ - 1) * geomS AZ (2 ^ k * m) := by norm_num [AZ]; ring
        _ = AZ ^ (2 ^ k * m) - 1 := sub_one_mul_geomS AZ (2 ^ k * m)
        _ = 2 ^ (k + 2) * w := by rw [hA]; ring
        _ = 4 * (2 ^ k * w) := by ring
    exact mul_left_cancel₀ (by norm_num) h4
  exact two_pow_dvd_of_odd_mul k hodd0 hw key

lemma lcgZ_iterate (n : ℕ) (x : ZMod (2 ^ 64)) :
    lcgZ^[n] x = (AZ : ZMod (2 ^ 64)) ^ n * x + geomS ((AZ : ℤ) : ZMod (2 ^ 64)) n := by
  induction n with
  | zero => simp [geomS]
  | succ n ih =>
    rw [Function.iterate_succ_apply', ih, lcgZ, geomS_succ]
    ring

lemma geomS_int_cast (n : ℕ) :
    ((geomS AZ n : ℤ) : ZMod (2 ^ 64)) = geomS ((AZ : ℤ) : ZMod (2 ^ 64)) n := by
  have h := map_geomS (Int.castRingHom (ZMod (2 ^ 64))) AZ n
  simpa using h

lemma lcgZ_not_periodic (x : ZMod (2 ^ 64)) (n : ℕ) (h0 : 0 < n)
    (h64 : n < 2 ^ 64) : lcgZ^[n] x ≠ x := by
  intro heq
  rw [lcgZ_iterate] at heq
  obtain ⟨k, m, hm2, hn⟩ := Nat.exists_eq_pow_mul_and_not_dvd h0.ne' 2 (by norm_num)
  subst hn
  have hmodd : Odd ((m : ℕ) : ℤ) := by
    rw [Int.odd_coe_nat]
    exact Nat.odd_iff.mpr (by omega)
  obtain ⟨w, hw, hA⟩ := A_pow_factored k m hmodd
  obtain ⟨c, hc, hS⟩ := geomS_A_factored k m hmodd
  have hm1 : 1 ≤ m := by
    rcases Nat.eq_zero_or_pos m with rfl | h
    · exact absurd ⟨0, rfl⟩ hm2
    · exact h
  have hk64 : k < 64 := by
    by_contra hk
    push_neg at hk
    have h1 : (2 : ℕ) ^ 64 ≤ 2 ^ k := Nat.pow_le_pow_right (by norm_num) hk
    have h2 : (2 : ℕ) ^ k ≤ 2 ^ k * m := Nat.le_mul_of_pos_right _ hm1
    omega
  have hval : (((x.val : ℤ)) : ZMod (2 ^ 64)) = x := by
    push_cast
    exact ZMod.natCast_rightInverse x
  have hzero :
      (((AZ ^ (2 ^ k * m) - 1) * (x.val : ℤ) + geomS AZ (2 ^ k * m) : ℤ) :
        ZMod (2 ^ 64)) = 0 := by
    rw [Int.cast_add, Int.cast_mul, Int.cast_sub, Int.cast_pow, Int.cast_one,
      geomS_int_cast, hval]
    have hre : ((AZ : ℤ) : ZMod (2 ^ 64)) ^ (2 ^ k * m) * x +
        geomS ((AZ : ℤ) : ZMod (2 ^ 64)) (2 ^ k * m) = x := heq
    calc (((AZ : ℤ) : ZMod (2 ^ 64)) ^ (2 ^ k * m) - 1) * x +
          geomS ((AZ : ℤ) : ZMod (2 ^ 64)) (2 ^ k * m)
        = (((AZ : ℤ) : ZMod (2 ^ 64)) ^ (2 ^ k * m) * x +
            geomS ((AZ : ℤ) : ZMod (2 ^ 64)) (2 ^ k * m)) - x := by ring
      _ = x - x := by rw [hre]
      _ = 0 := sub_self x
  have hdvd : ((2 ^ 64 : ℕ) : ℤ) ∣
      (AZ ^ (2 ^ k * m) - 1) * (x.val : ℤ) + geomS AZ (2 ^ k * m) :=
    (ZMod.intCast_zmod_eq_zero_iff_dvd _ _).mp hzero
  have hrw : (AZ ^ (2 ^ k * m) - 1) * (x.val : ℤ) + geomS AZ (2 ^ k * m) =
      2 ^ k * (4 * (w * (x.val : ℤ)) + c) := by
    rw [hA, hS]
    ring
  rw [hrw] at hdvd
  have hcast64 : ((2 ^ 64 : ℕ) : ℤ) = 2 ^ 64 := by norm_cast
  rw [hcast64] at hdvd
  have hsplit : (2 : ℤ) ^ 64 = 2 ^ k * 2 ^ (64 - k) := by
    rw [← pow_add]
    congr 1
    omega
  rw [hsplit] at hdvd
  have hdvd2 : (2 : ℤ) ^ (64 - k) ∣ 4 * (w * (x.val : ℤ)) + c :=
    (mul_dvd_mul_iff_left (pow_ne_zero k (two_ne_zero))).mp hdvd
  have h2d : (2 : ℤ) ∣ 4 * (w * (x.val : ℤ)) + c :=
    dvd_trans (dvd_pow_self 2 (by omega : 64 - k ≠ 0)) hdvd2
  have hDodd : Odd (4 * (w * (x.val : ℤ)) + c) :=
    Even.add_odd ⟨2 * (w * (x.val : ℤ)), by ring⟩ hc
  exact (Int.not_even_iff_odd.mpr hDodd) (even_iff_two_dvd.mpr h2d)

lemma A_pow_two_pow_64 : ((AZ : ℤ) : ZMod (2 ^ 64)) ^ 2 ^ 64 = 1 := by
  obtain ⟨w, hw, hA⟩ := A_pow_factored 64 1 (by rw [Nat.cast_one]; exact odd_one)
  rw [mul_one] at hA
  have hcast := congrArg (fun t : ℤ => ((t : ℤ) : ZMod (2 ^ 64))) hA
  simp only [Int.cast_pow, Int.cast_add, Int.cast_mul, Int.cast_one] at hcast
  have h20 : ((2 : ℤ) : ZMod (2 ^ 64)) ^ (64 + 2) = 0 := by
    have h0 : ((2 ^ 64 : ℕ) : ZMod (2 ^ 64)) = 0 := ZMod.natCast_self _
    have hsp : ((2 : ℤ) : ZMod (2 ^ 64)) ^ (64 + 2) =
        ((2 ^ 64 : ℕ) : ZMod (2 ^ 64)) * ((2 : ℤ) : ZMod (2 ^ 64)) ^ 2 := by
      rw [pow_add]
      norm_cast
    rw [hsp, h0, zero_mul]
  rw [h20, zero_mul, add_zero] at hcast
  exact hcast

lemma geomS_two_pow_64 : geomS ((AZ : ℤ) : ZMod (2 ^ 64)) (2 ^ 64) = 0 := by
  obtain ⟨c, hc, hS⟩ := geomS_A_factored 64 1 (by rw [Nat.cast_one]; exact odd_one)
  rw [mul_one] at hS
  have hcast := congrArg (fun t : ℤ => ((t : ℤ) : ZMod (2 ^ 64))) hS
  simp only [Int.cast_mul, Int.cast_pow] at hcast
  rw [geomS_int_cast] at hcast
  have h0 : ((2 : ℤ) : ZMod (2 ^ 64)) ^ 64 = 0 := by
    have hn : ((2 ^ 64 : ℕ) : ZMod (2 ^ 64)) = 0 := ZMod.natCast_self _
    have : ((2 : ℤ) : ZMod (2 ^ 64)) ^ 64 = ((2 ^ 64 : ℕ) : ZMod (2 ^ 64)) := by
      norm_cast
    rw [this, hn]
  rw [h0, zero_mul] at hcast
  exact hcast

lemma lcgZ_iterate_two_pow_64 (x : ZMod (2 ^ 64)) : lcgZ^[2 ^ 64] x = x := by
  rw [lcgZ_iterate, A_pow_two_pow_64, geomS_two_pow_64, one_mul, add_zero]

lemma lcgZ_orbit_key (x : ZMod (2 ^ 64)) (i j : ℕ) (hij : i < j) (hj : j < 2 ^ 64)
    (h : lcgZ^[j] x = lcgZ^[i] x) : False := by
  have hsplit : lcgZ^[j] x = lcgZ^[j - i] (lcgZ^[i] x) := by
    rw [← Function.iterate_add_apply]
    congr 1
    omega
  rw [hsplit] at h
  exact lcgZ_not_periodic (lcgZ^[i] x) (j - i) (by omega) (by omega) h

lemma lcgZ_orbit_surjective (x y : ZMod (2 ^ 64)) :
    ∃ n : ℕ, n < 2 ^ 64 ∧ lcgZ^[n] x = y := by
  have hinj : Function.Injective (fun i : Fin (2 ^ 64) => lcgZ^[i.val] x) := by
    intro i j hij
    simp only at hij
    rcases lt_trichotomy i.val j.val with hlt | heq | hgt
    · exact absurd (lcgZ_orbit_key x i.val j.val hlt j.isLt hij.symm) not_false
    · exact Fin.ext heq
    · exact absurd (lcgZ_orbit_key x j.val i.val hgt i.isLt hij) not_false
  have hbij : Function.Bijective (fun i : Fin (2 ^ 64) => lcgZ^[i.val] x) := by
    rw [Fintype.bijective_iff_injective_and_card]
    exact ⟨hinj, by rw [Fintype.card_fin, ZMod.card]⟩
  obtain ⟨i, hi⟩ := hbij.2 y
  exact ⟨i.val, i.isLt, hi⟩

lemma nextState_cast (x : ℕ) :
    ((Rng.nextState x : ℕ) : ZMod (2 ^ 64)) = lcgZ ((x : ℕ) : ZMod (2 ^ 64)) := by
  rw [Rng.nextState, ZMod.natCast_mod, lcgZ]
  push_cast [Rng.A, Rng.C, AZ]
  ring

lemma nextState_iterate_cast (n x : ℕ) :
    ((Rng.nextState^[n] x : ℕ) : ZMod (2 ^ 64)) =
      lcgZ^[n] ((x : ℕ) : ZMod (2 ^ 64)) := by
  induction n with
  | zero => rfl
  | succ n ih =>
    rw [Function.iterate_succ_apply', Function.iterate_succ_apply',
      nextState_cast, ih]

lemma nextState_iterate_lt (n x : ℕ) (h : 0 < n) :
    Rng.nextState^[n] x < 2 ^ 64 := by
  obtain ⟨j, rfl⟩ : ∃ j, n = j + 1 := ⟨n - 1, by omega⟩
  rw [Function.iterate_succ_apply']
  exact Rng.nextState_lt _

lemma natCast_zmod_inj_of_lt {a b : ℕ} (ha : a < 2 ^ 64) (hb : b < 2 ^ 64)
    (h : ((a : ℕ) : ZMod (2 ^ 64)) = ((b : ℕ) : ZMod (2 ^ 64))) : a = b := by
  have hv := congrArg ZMod.val h
  rwa [ZMod.val_cast_of_lt ha, ZMod.val_cast_of_lt hb] at hv

/-- Claim C8: the LCG recurrence `x ↦ (A * x + C) mod 2^64` with
`A = 6364136223846793005` and `C = 1` has full period: from any 64-bit start
state no iterate before the `2^64`-th returns to the start, the `2^64`-th
iterate does return, and the orbit visits every one of the `2^64` possible
state values. -/
theorem lcg_full_period (x : ℕ) (hx : x < 2 ^ 64) :
    (∀ n : ℕ, 0 < n → n < 2 ^ 64 → Rng.nextState^[n] x ≠ x) ∧
    Rng.nextState^[2 ^ 64] x = x ∧
    (∀ y : ℕ, y < 2 ^ 64 → ∃ n : ℕ, n < 2 ^ 64 ∧ Rng.nextState^[n] x = y) := by
  refine ⟨?_, ?_, ?_⟩
  · intro n h0 h64 heq
    have hc := nextState_iterate_cast n x
    rw [heq] at hc
    exact lcgZ_not_periodic ((x : ℕ) : ZMod (2 ^ 64)) n h0 h64 hc.symm
  · refine natCast_zmod_inj_of_lt (nextState_iterate_lt _ _ (by positivity)) hx ?_
    rw [nextState_iterate_cast, lcgZ_iterate_two_pow_64]
  · intro y hy
    obtain ⟨n, hn, hiter⟩ :=
      lcgZ_orbit_surjective ((x : ℕ) : ZMod (2 ^ 64)) ((y : ℕ) : ZMod (2 ^ 64))
    refine ⟨n, hn, ?_⟩
    have hlt : Rng.nextState^[n] x < 2 ^ 64 := by
      rcases Nat.eq_zero_or_pos n with rfl | hpos
      · simpa using hx
      · exact nextState_iterate_lt n x hpos
    refine natCast_zmod_inj_of_lt hlt hy ?_
    rw [nextState_iterate_cast, hiter]

theorem lcg_full_period_witness :
    (0 : ℕ) < 2 ^ 64 ∧ Rng.nextState^[2 ^ 64] 0 = 0 :=
  ⟨by positivity, (lcg_full_period 0 (by positivity)).2.1⟩

lemma marsagliaLoop_state (lnf sqrtf : ℚ → ℚ) :
    ∀ (fuel : ℕ) (r : Rng) (p : ℚ × Rng),
      marsagliaLoop lnf sqrtf fuel r = some p →
      ∃ k : ℕ, 1 ≤ k ∧ k ≤ fuel ∧ p.2.state = Rng.nextState^[2 * k] r.state := by
  intro fuel
  induction fuel with
  | zero =>
    intro r p h
    simp [marsagliaLoop] at h
  | succ fuel ih =>
    intro r p h
    rw [marsagliaLoop] at h
    dsimp only at h
    split at h
    · have hp := Option.some.inj h
      refine ⟨1, le_refl 1, by omega, ?_⟩
      rw [← hp]
      rfl
    · obtain ⟨k, hk1, hkf, hst⟩ := ih _ p h
      refine ⟨k + 1, by omega, by omega, ?_⟩
      rw [hst]
      have h2 : 2 * (k + 1) = 2 * k + 2 := by ring
      rw [h2, Function.iterate_add_apply]
      rfl

/-- Claim C6: when the cache holds `x`, `Rng::gen_standard_normal` returns
exactly `x`, empties the cache and leaves the engine state unchanged (no
draws happen); when the cache is empty and the rejection loop returns, the
engine state has changed.  Both parts hold for every choice of the numeric
primitives `lnf` and `sqrtf`. -/
theorem sample_cache_frame (lnf sqrtf : ℚ → ℚ) (fuel : ℕ) (r : Rng) :
    (∀ x : ℚ, r.cached_normal = some x →
      Rng.gen_standard_normal lnf sqrtf fuel r =
        some (x, { r with cached_normal := none })) ∧
    (r.cached_normal = none → r.state < 2 ^ 64 → fuel < 2 ^ 63 →
      ∀ p : ℚ × Rng, Rng.gen_standard_normal lnf sqrtf fuel r = some p →
        p.2.state ≠ r.state) := by
  constructor
  · intro x hx
    simp [Rng.gen_standard_normal, hx]
  · intro hnone hstate hfuel p hp
    have hloop : marsagliaLoop lnf sqrtf fuel r = some p := by
      simpa [Rng.gen_standard_normal, hnone] using hp
    obtain ⟨k, hk1, hkf, hst⟩ := marsagliaLoop_state lnf sqrtf fuel r p hloop
    rw [hst]
    intro heq
    have hc := nextState_iterate_cast (2 * k) r.state
    rw [heq] at hc
    have hpow : (2 : ℕ) ^ 64 = 2 * 2 ^ 63 := by norm_num
    exact lcgZ_not_periodic ((r.state : ℕ) : ZMod (2 ^ 64)) (2 * k)
      (by omega) (by omega) hc.symm

theorem sample_cache_frame_witness :
    Rng.gen_standard_normal (fun _ => 0) (fun _ => 0) 1 ⟨7, 7, some 5⟩ =
      some (5, ⟨7, 7, none⟩) ∧
    ((0 : ℚ), (⟨1, 13885033948157127959, some 0⟩ : Rng)).2.state ≠
      (Rng.new_seed 1).state := by
  constructor
  · exact (sample_cache_frame (fun _ => 0) (fun _ => 0) 1 ⟨7, 7, some 5⟩).1 5 rfl
  · refine (sample_cache_frame (fun _ => 0) (fun _ => 0) 1 (Rng.new_seed 1)).2
      rfl (by norm_num [Rng.new_seed]) (by norm_num)
      ((0 : ℚ), ⟨1, 13885033948157127959, some 0⟩) ?_
    show marsagliaLoop (fun _ => 0) (fun _ => 0) (0 + 1) (Rng.new_seed 1) = _
    rw [marsagliaLoop]
    norm_num [Rng.generate, Rng.next, Rng.nextState, Rng.new_seed, Rng.A, Rng.C,
      Rng.INV_U64_MAX, sAccepted]

lemma randelIndex_lt (len : ℕ) (uni : ℚ) (hlen : 1 ≤ len) :
    randelIndex len uni < len := by
  rw [randelIndex]
  have hmin : min ⌊(len : ℚ) * uni⌋ ((len : ℤ) - 1) ≤ (len : ℤ) - 1 :=
    min_le_right _ _
  have htn : (min ⌊(len : ℚ) * uni⌋ ((len : ℤ) - 1)).toNat ≤
      ((len : ℤ) - 1).toNat := Int.toNat_le_toNat hmin
  omega

/-- Claim C10: a `RandEl` built by `RandEl::new` has a non-empty vector, the
index `(len * uni).floor().min(len - 1)` is strictly below the vector length
for every uniform value in `[0, 1]` (the boundary `uni = 1` included), and
`RandEl::generate` therefore always returns an element, never indexing out
of bounds. -/
theorem randel_generate_in_bounds {α : Type} (seed : ℕ) (vec : List α)
    (r : RandEl α) (uni : ℚ) (hnew : RandEl.new seed vec = Except.ok r)
    (h0 : 0 ≤ uni) (h1 : uni ≤ 1) :
    randelIndex r.vec.length uni < r.vec.length ∧
    (RandEl.generate r).1.isSome = true := by
  have hlen : 1 ≤ r.vec.length := by
    rw [RandEl.new, RngError.check_empty] at hnew
    cases hv : vec.isEmpty with
    | true =>
      rw [hv] at hnew
      simp at hnew
    | false =>
      rw [hv] at hnew
      simp at hnew
      have hrv : r.vec = vec := by rw [← hnew]
      have hne : vec ≠ [] := by
        intro hnil
        rw [hnil] at hv
        simp at hv
      rw [hrv]
      exact List.length_pos.mpr hne
  refine ⟨randelIndex_lt _ _ hlen, ?_⟩
  rw [RandEl.generate]
  dsimp only
  rw [List.get?_eq_get (randelIndex_lt _ _ hlen)]
  rfl

theorem randel_generate_in_bounds_witness :
    randelIndex (3 : ℕ) 1 < 3 ∧
    (RandEl.generate (⟨Rng.new_seed 7, [10, 20, 30]⟩ : RandEl ℕ)).1.isSome =
      true :=
  randel_generate_in_bounds 7 [10, 20, 30] ⟨Rng.new_seed 7, [10, 20, 30]⟩ 1
    rfl zero_le_one le_rfl
